import Mathlib

/-!
Verification of the seekable stream cipher library (ascon / keccak / chacha
variants) against its natural-language specification.

Machine integers are modelled as `Nat` with explicit reduction modulo `2^64`
(resp. `2^32`) where the Rust code relies on fixed-width behaviour.  Byte
buffers are `List Nat` whose entries are intended to lie below 256.  Fallible
indexing / slicing operations (which panic in Rust) are modelled with
`Option`: a `none` result corresponds to a panic of the original program.
-/

/-- Little-endian serialisation of a machine integer into `k` bytes
(`u64::to_le_bytes` for `k = 8`, `u32::to_le_bytes` for `k = 4`). -/
def leBytes : Nat → Nat → List Nat
  | 0, _ => []
  | k + 1, n => n % 256 :: leBytes k (n / 256)

/-- Little-endian value of a byte sequence (`uN::from_le_bytes`). -/
def leVal : List Nat → Nat
  | [] => 0
  | b :: bs => b + 256 * leVal bs

theorem leBytes_length (k n : Nat) : (leBytes k n).length = k := by
  induction k generalizing n with
  | zero => rfl
  | succ k ih => simp [leBytes, ih]

theorem leBytes_lt (k n : Nat) : ∀ b ∈ leBytes k n, b < 256 := by
  induction k generalizing n with
  | zero => simp [leBytes]
  | succ k ih =>
    intro b hb
    simp only [leBytes, List.mem_cons] at hb
    rcases hb with h | h
    · simpa [h] using Nat.mod_lt n (by norm_num)
    · exact ih _ b h

theorem xor_mod256 (a b : Nat) : (a ^^^ b) % 256 = (a % 256) ^^^ (b % 256) := by
  apply Nat.eq_of_testBit_eq
  intro i
  have h256 : (256 : Nat) = 2 ^ 8 := by norm_num
  rw [h256]
  simp only [Nat.testBit_mod_two_pow, Nat.testBit_xor]
  cases h : decide (i < 8) <;> simp

theorem xor_div256 (a b : Nat) : (a ^^^ b) / 256 = (a / 256) ^^^ (b / 256) := by
  have h : ∀ x : Nat, x / 256 = x >>> 8 := by
    intro x
    rw [Nat.shiftRight_eq_div_pow]
  rw [h, h, h]
  apply Nat.eq_of_testBit_eq
  intro i
  simp [Nat.testBit_shiftRight, Nat.testBit_xor]

theorem leBytes_xor (k a b : Nat) :
    leBytes k (a ^^^ b) = List.zipWith Nat.xor (leBytes k a) (leBytes k b) := by
  induction k generalizing a b with
  | zero => rfl
  | succ k ih =>
    simp only [leBytes, List.zipWith_cons_cons, List.cons.injEq]
    refine ⟨xor_mod256 a b, ?_⟩
    rw [xor_div256]
    exact ih _ _

theorem leBytes_leVal (bs : List Nat) (hb : ∀ b ∈ bs, b < 256) :
    leBytes bs.length (leVal bs) = bs := by
  induction bs with
  | nil => rfl
  | cons b bs ih =>
    have hblt : b < 256 := hb b (List.mem_cons_self b bs)
    simp only [List.length_cons, leBytes, leVal, List.cons.injEq]
    constructor
    · rw [Nat.add_mul_mod_self_left]
      exact Nat.mod_eq_of_lt hblt
    · rw [Nat.add_mul_div_left _ _ (by norm_num : (0:Nat) < 256),
        Nat.div_eq_of_lt hblt, Nat.zero_add]
      exact ih fun x hx => hb x (List.mem_cons_of_mem _ hx)

/-- Model of `buf[..src.len()].copy_from_slice(src)`: succeeds (returning the
updated buffer) iff the source fits, otherwise the Rust code panics. -/
def copyInto (buf src : List Nat) : Option (List Nat) :=
  if src.length ≤ buf.length then some (src ++ buf.drop src.length) else none

/-- Model of `buf[i] = v`: succeeds iff the index is in bounds, otherwise the
Rust code panics. -/
def setAt (buf : List Nat) (i v : Nat) : Option (List Nat) :=
  if i < buf.length then some (buf.set i v) else none

/-- Model of the slice expression `buf[a..][0..b]`: succeeds iff the chosen
range lies inside the buffer, otherwise the Rust code panics. -/
def sliceRange (buf : List Nat) (a b : Nat) : Option (List Nat) :=
  if a + b ≤ buf.length then some ((buf.drop a).take b) else none

theorem copyInto_eq (buf src : List Nat) (h : src.length ≤ buf.length) :
    copyInto buf src = some (src ++ buf.drop src.length) := by
  simp [copyInto, h]

theorem setAt_eq (buf : List Nat) (i v : Nat) (h : i < buf.length) :
    setAt buf i v = some (buf.set i v) := by
  simp [setAt, h]

theorem sliceRange_eq (buf : List Nat) (a b : Nat) (h : a + b ≤ buf.length) :
    sliceRange buf a b = some ((buf.drop a).take b) := by
  simp [sliceRange, h]

theorem drop_take_eq_map_getD (l : List Nat) (a n : Nat) (h : a + n ≤ l.length) :
    (l.drop a).take n = (List.range n).map (fun i => l.getD (a + i) 0) := by
  apply List.ext_getElem
  · simp only [List.length_take, List.length_drop, List.length_map, List.length_range]
    omega
  · intro i h1 h2
    have hi : i < n := by simpa using h2
    have hlt : a + i < l.length := by omega
    simp only [List.getElem_take, List.getElem_drop, List.getElem_map, List.getElem_range]
    rw [List.getD_eq_getElem l 0 hlt]

theorem take_eq_map_getD (l : List Nat) (n : Nat) (h : n ≤ l.length) :
    l.take n = (List.range n).map (fun i => l.getD i 0) := by
  have := drop_take_eq_map_getD l 0 n (by omega)
  simpa using this

theorem zipWith_take_right (f : Nat → Nat → Nat) (l l' : List Nat) :
    List.zipWith f l (l'.take l.length) = List.zipWith f l l' := by
  induction l generalizing l' with
  | nil => simp
  | cons x xs ih =>
    cases l' with
    | nil => simp
    | cons y ys => simp [List.take_succ_cons, ih]

theorem zipWith_take_right_le (f : Nat → Nat → Nat) (l l' : List Nat) (n : Nat)
    (h : l.length ≤ n) : List.zipWith f l (l'.take n) = List.zipWith f l l' := by
  induction l generalizing l' n with
  | nil => simp
  | cons x xs ih =>
    cases l' with
    | nil => simp
    | cons y ys =>
      cases n with
      | zero => simp at h
      | succ m =>
        simp only [List.take_succ_cons, List.zipWith_cons_cons]
        rw [ih ys m (by simpa using h)]

theorem flatMap_range_succ (f : Nat → List Nat) (n : Nat) :
    (List.range (n + 1)).flatMap f = f 0 ++ (List.range n).flatMap (fun i => f (i + 1)) := by
  rw [List.range_succ_eq_map]
  simp [List.flatMap_cons, List.flatMap_map, Nat.succ_eq_add_one]

theorem length_flatMap_leBytes (k n : Nat) (g : Nat → Nat) :
    ((List.range n).flatMap (fun i => leBytes k (g i))).length = n * k := by
  induction n generalizing g with
  | zero => simp
  | succ m ih =>
    rw [flatMap_range_succ]
    simp only [List.length_append, leBytes_length, ih]
    ring

theorem mem_flatMap_leBytes_lt (k n : Nat) (g : Nat → Nat) :
    ∀ b ∈ (List.range n).flatMap (fun i => leBytes k (g i)), b < 256 := by
  intro b hb
  rw [List.mem_flatMap] at hb
  obtain ⟨i, _, hmem⟩ := hb
  exact leBytes_lt k (g i) b hmem

/-- Byte `p` of the infinite keystream determined by the block function
`blk` (block `p / rate`, intra-block position `p % rate`). -/
def streamByte (rate : Nat) (blk : Nat → List Nat) (p : Nat) : Nat :=
  (blk (p / rate)).getD (p % rate) 0

/-- The `while out.len() >= rate` loop of `fill` together with the trailing
partial-block copy, entered with current block index `bo` (each step first
increments the block index, exactly as the Rust code does). -/
def fillGo (rate : Nat) (blk : Nat → List Nat) (bo : Nat) (out : List Nat) : List Nat :=
  if h : 0 < rate ∧ rate ≤ out.length then
    blk (bo + 1) ++ fillGo rate blk (bo + 1) (out.drop rate)
  else if out.length = 0 then [] else (blk (bo + 1)).take out.length
termination_by out.length
decreasing_by simp only [List.length_drop]; omega

/-- Transcription of `StreamCipher::fill` (shared shape of the three
variants, parameterised by the block size and the squeezed block): overflow
check, first partial block, full-block loop, trailing partial block.  The
`Bool` result is `true` for `Ok(())` and `false` for the overflow error; the
list is the buffer contents after the call. -/
def genFill (rate : Nat) (blk : Nat → List Nat) (out : List Nat) (start : Nat) :
    Bool × List Nat :=
  if 2 ^ 64 - 1 < start + out.length then (false, out)
  else if 0 < min (rate - start % rate) out.length then
    (true,
      ((blk (start / rate)).drop (start % rate)).take (min (rate - start % rate) out.length)
        ++ fillGo rate blk (start / rate) (out.drop (min (rate - start % rate) out.length)))
  else (true, fillGo rate blk (start / rate) out)

/-- The `while out.len() >= rate` loop of `apply_keystream` together with the
trailing partial-block XOR; `aply chunk b` is the in-place XOR of one full
block (`apply_rate`). -/
def applyGo (rate : Nat) (blk : Nat → List Nat) (aply : List Nat → Nat → List Nat)
    (bo : Nat) (out : List Nat) : List Nat :=
  if h : 0 < rate ∧ rate ≤ out.length then
    aply (out.take rate) (bo + 1) ++ applyGo rate blk aply (bo + 1) (out.drop rate)
  else if out.length = 0 then [] else List.zipWith Nat.xor out (blk (bo + 1))
termination_by out.length
decreasing_by simp only [List.length_drop]; omega

/-- Transcription of `StreamCipher::apply_keystream` (shared shape of the
three variants). -/
def genApply (rate : Nat) (blk : Nat → List Nat) (aply : List Nat → Nat → List Nat)
    (out : List Nat) (start : Nat) : Bool × List Nat :=
  if 2 ^ 64 - 1 < start + out.length then (false, out)
  else if 0 < min (rate - start % rate) out.length then
    (true,
      List.zipWith Nat.xor (out.take (min (rate - start % rate) out.length))
          ((blk (start / rate)).drop (start % rate))
        ++ applyGo rate blk aply (start / rate)
            (out.drop (min (rate - start % rate) out.length)))
  else (true, applyGo rate blk aply (start / rate) out)

theorem streamByte_block (rate : Nat) (blk : Nat → List Nat) (b i : Nat)
    (hr : 0 < rate) (hi : i < rate) :
    streamByte rate blk (b * rate + i) = (blk b).getD i 0 := by
  unfold streamByte
  have hdiv : (b * rate + i) / rate = b := by
    rw [Nat.mul_comm b rate, Nat.mul_add_div hr, Nat.div_eq_of_lt hi, Nat.add_zero]
  have hmod : (b * rate + i) % rate = i := by
    rw [Nat.mul_comm b rate, Nat.mul_add_mod, Nat.mod_eq_of_lt hi]
  rw [hdiv, hmod]

theorem start_next_block (start rate i : Nat) (hr : 0 < rate) :
    start + (rate - start % rate + i) = (start / rate + 1) * rate + i := by
  obtain ⟨q, r, hlt, rfl⟩ : ∃ q r, r < rate ∧ start = rate * q + r :=
    ⟨start / rate, start % rate, Nat.mod_lt _ hr, (Nat.div_add_mod start rate).symm⟩
  obtain ⟨k, hk⟩ := Nat.le.dest (Nat.le_of_lt hlt)
  rw [Nat.mul_add_div hr, Nat.div_eq_of_lt hlt, Nat.add_zero, Nat.mul_add_mod,
    Nat.mod_eq_of_lt hlt, ← hk, Nat.add_sub_cancel_left]
  ring

theorem start_decomp (start rate i : Nat) :
    start + i = start / rate * rate + (start % rate + i) := by
  have h1 : rate * (start / rate) + start % rate = start := Nat.div_add_mod start rate
  calc start + i = rate * (start / rate) + start % rate + i := by rw [h1]
    _ = start / rate * rate + (start % rate + i) := by ring

theorem fillGo_eq (rate : Nat) (blk : Nat → List Nat) (hr : 0 < rate)
    (H1 : ∀ b, (blk b).length = rate) :
    ∀ (out : List Nat) (bo : Nat),
      fillGo rate blk bo out
        = (List.range out.length).map
            (fun i => streamByte rate blk ((bo + 1) * rate + i)) := by
  suffices h : ∀ (n : Nat) (out : List Nat), out.length = n → ∀ bo,
      fillGo rate blk bo out
        = (List.range out.length).map
            (fun i => streamByte rate blk ((bo + 1) * rate + i)) by
    intro out bo
    exact h out.length out rfl bo
  intro n
  induction n using Nat.strong_induction_on with
  | _ n ih =>
    intro out hlen bo
    rw [fillGo]
    by_cases hfull : rate ≤ out.length
    · rw [dif_pos ⟨hr, hfull⟩]
      have hdrop : (out.drop rate).length = out.length - rate := by simp
      rw [ih (out.length - rate) (by omega) (out.drop rate) hdrop (bo + 1), hdrop]
      conv_rhs => rw [show out.length = rate + (out.length - rate) from by omega,
        List.range_add, List.map_append, List.map_map]
      congr 1
      · have hfirst : (List.range rate).map
            (fun i => streamByte rate blk ((bo + 1) * rate + i))
            = (List.range rate).map (fun i => (blk (bo + 1)).getD i 0) := by
          apply List.map_congr_left
          intro i hi
          rw [List.mem_range] at hi
          exact streamByte_block rate blk (bo + 1) i hr hi
        rw [hfirst, ← take_eq_map_getD _ _ (by rw [H1])]
        rw [List.take_of_length_le (by rw [H1])]
      · apply List.map_congr_left
        intro i _
        simp only [Function.comp_apply]
        congr 1
        ring
    · rw [dif_neg (by tauto)]
      by_cases hz : out.length = 0
      · simp [hz]
      · rw [if_neg hz]
        have hle : out.length ≤ rate := by omega
        rw [take_eq_map_getD _ _ (by rw [H1]; exact hle)]
        apply (List.map_congr_left ?_).symm
        intro i hi
        rw [List.mem_range] at hi
        exact streamByte_block rate blk (bo + 1) i hr (by omega)

theorem genFill_eq (rate : Nat) (blk : Nat → List Nat) (out : List Nat) (start : Nat)
    (hr : 0 < rate) (H1 : ∀ b, (blk b).length = rate)
    (hov : start + out.length ≤ 2 ^ 64 - 1) :
    genFill rate blk out start
      = (true, (List.range out.length).map (fun i => streamByte rate blk (start + i))) := by
  unfold genFill
  rw [if_neg (by omega)]
  have hofb : start % rate < rate := Nat.mod_lt _ hr
  by_cases hnil : out.length = 0
  · have hout : out = [] := List.eq_nil_of_length_eq_zero hnil
    subst hout
    rw [if_neg (by simp), fillGo,
      dif_neg (by rintro ⟨h1, h2⟩; simp at h2; omega), if_pos (by simp)]
    simp
  · have hbtc : 0 < min (rate - start % rate) out.length := by omega
    rw [if_pos hbtc]
    have hhead : ((blk (start / rate)).drop (start % rate)).take
          (min (rate - start % rate) out.length)
        = (List.range (min (rate - start % rate) out.length)).map
            (fun i => streamByte rate blk (start + i)) := by
      rw [drop_take_eq_map_getD _ _ _ (by rw [H1]; omega)]
      apply List.map_congr_left
      intro i hi
      rw [List.mem_range] at hi
      rw [start_decomp start rate i, streamByte_block rate blk _ _ hr (by omega)]
    by_cases hcase : rate - start % rate ≤ out.length
    · have hbtc2 : min (rate - start % rate) out.length = rate - start % rate := by omega
      rw [hbtc2] at hhead ⊢
      rw [fillGo_eq rate blk hr H1]
      have hdroplen : (out.drop (rate - start % rate)).length
          = out.length - (rate - start % rate) := by simp
      rw [hdroplen]
      conv_rhs =>
        rw [show out.length = (rate - start % rate) + (out.length - (rate - start % rate))
              from by omega,
          List.range_add, List.map_append, List.map_map]
      rw [hhead]
      congr 1
      congr 1
      apply List.map_congr_left
      intro i _
      simp only [Function.comp_apply]
      congr 1
      exact (start_next_block start rate i hr).symm
    · have hbtc2 : min (rate - start % rate) out.length = out.length := by omega
      rw [hbtc2] at hhead ⊢
      rw [List.drop_length, fillGo,
        dif_neg (by rintro ⟨h1, h2⟩; simp at h2; omega), if_pos (by simp)]
      rw [List.append_nil, hhead]

theorem applyGo_eq (rate : Nat) (blk : Nat → List Nat) (aply : List Nat → Nat → List Nat)
    (hr : 0 < rate) (H1 : ∀ b, (blk b).length = rate)
    (H2 : ∀ (chunk : List Nat) (b : Nat), chunk.length = rate → (∀ x ∈ chunk, x < 256) →
      aply chunk b = List.zipWith Nat.xor chunk (blk b)) :
    ∀ (out : List Nat), (∀ x ∈ out, x < 256) → ∀ bo,
      applyGo rate blk aply bo out = List.zipWith Nat.xor out (fillGo rate blk bo out) := by
  suffices h : ∀ (n : Nat) (out : List Nat), out.length = n → (∀ x ∈ out, x < 256) → ∀ bo,
      applyGo rate blk aply bo out = List.zipWith Nat.xor out (fillGo rate blk bo out) by
    intro out hb bo
    exact h out.length out rfl hb bo
  intro n
  induction n using Nat.strong_induction_on with
  | _ n ih =>
    intro out hlen hb bo
    rw [applyGo, fillGo]
    by_cases hfull : rate ≤ out.length
    · rw [dif_pos ⟨hr, hfull⟩, dif_pos ⟨hr, hfull⟩]
      have hdrop : (out.drop rate).length = out.length - rate := by simp
      rw [ih (out.length - rate) (by omega) (out.drop rate) hdrop
        (fun x hx => hb x (List.drop_subset _ _ hx)) (bo + 1)]
      rw [H2 (out.take rate) (bo + 1)
        (by simp only [List.length_take]; omega)
        (fun x hx => hb x (List.take_subset _ _ hx))]
      set t := fillGo rate blk (bo + 1) (out.drop rate) with ht
      conv_rhs => rw [← List.take_append_drop rate out]
      rw [List.zipWith_append _ _ _ _ _ (by rw [List.length_take, H1]; omega)]
    · rw [dif_neg (by tauto), dif_neg (by tauto)]
      by_cases hz : out.length = 0
      · have hout : out = [] := List.eq_nil_of_length_eq_zero hz
        subst hout
        simp
      · rw [if_neg hz, if_neg hz]
        rw [← zipWith_take_right Nat.xor out (blk (bo + 1))]

theorem genApply_eq (rate : Nat) (blk : Nat → List Nat) (aply : List Nat → Nat → List Nat)
    (out : List Nat) (start : Nat) (hr : 0 < rate) (H1 : ∀ b, (blk b).length = rate)
    (H2 : ∀ (chunk : List Nat) (b : Nat), chunk.length = rate → (∀ x ∈ chunk, x < 256) →
      aply chunk b = List.zipWith Nat.xor chunk (blk b))
    (hb : ∀ x ∈ out, x < 256) (hov : start + out.length ≤ 2 ^ 64 - 1) :
    genApply rate blk aply out start
      = (true, List.zipWith Nat.xor out (genFill rate blk out start).2) := by
  unfold genApply genFill
  have hno : ¬ (2 ^ 64 - 1 < start + out.length) := by omega
  rw [if_neg hno, if_neg hno]
  have hofb : start % rate < rate := Nat.mod_lt _ hr
  by_cases hnil : out.length = 0
  · have hout : out = [] := List.eq_nil_of_length_eq_zero hnil
    subst hout
    have hno2 : ¬ (0 < min (rate - start % rate) ([] : List Nat).length) := by simp
    rw [if_neg hno2, if_neg hno2, applyGo,
      dif_neg (by rintro ⟨h1, h2⟩; simp at h2; omega), if_pos (by simp)]
    simp
  · set m := min (rate - start % rate) out.length with hm
    have hbtc : 0 < m := by
      rw [hm]
      exact lt_min (by omega) (by omega)
    have hmle : m ≤ out.length := by
      rw [hm]
      exact min_le_right _ _
    have hmrate : m ≤ rate - start % rate := by
      rw [hm]
      exact min_le_left _ _
    rw [if_pos hbtc, if_pos hbtc]
    rw [applyGo_eq rate blk aply hr H1 H2 (out.drop m)
      (fun x hx => hb x (List.drop_subset _ _ hx)) (start / rate)]
    set t := fillGo rate blk (start / rate) (out.drop m) with ht
    conv_rhs => rw [← List.take_append_drop m out]
    rw [List.zipWith_append _ _ _ _ _
      (by simp only [List.length_take, List.length_drop, H1]; omega)]
    rw [zipWith_take_right_le Nat.xor (out.take m) _ m
      (by simp only [List.length_take]; omega)]

theorem genFill_err (rate : Nat) (blk : Nat → List Nat) (out : List Nat) (start : Nat)
    (h : 2 ^ 64 - 1 < start + out.length) : genFill rate blk out start = (false, out) := by
  unfold genFill
  rw [if_pos h]

theorem genApply_err (rate : Nat) (blk : Nat → List Nat) (aply : List Nat → Nat → List Nat)
    (out : List Nat) (start : Nat) (h : 2 ^ 64 - 1 < start + out.length) :
    genApply rate blk aply out start = (false, out) := by
  unfold genApply
  rw [if_pos h]

theorem genFill_fst_false_iff (rate : Nat) (blk : Nat → List Nat) (out : List Nat)
    (start : Nat) :
    (genFill rate blk out start).1 = false ↔ 2 ^ 64 - 1 < start + out.length := by
  unfold genFill
  by_cases h : 2 ^ 64 - 1 < start + out.length
  · rw [if_pos h]
    simpa using h
  · rw [if_neg h]
    by_cases h2 : 0 < min (rate - start % rate) out.length
    · rw [if_pos h2]
      simpa using h
    · rw [if_neg h2]
      simpa using h

theorem genApply_fst_false_iff (rate : Nat) (blk : Nat → List Nat)
    (aply : List Nat → Nat → List Nat) (out : List Nat) (start : Nat) :
    (genApply rate blk aply out start).1 = false ↔ 2 ^ 64 - 1 < start + out.length := by
  unfold genApply
  by_cases h : 2 ^ 64 - 1 < start + out.length
  · rw [if_pos h]
    simpa using h
  · rw [if_neg h]
    by_cases h2 : 0 < min (rate - start % rate) out.length
    · rw [if_pos h2]
      simpa using h
    · rw [if_neg h2]
      simpa using h

theorem genFill_nil (rate : Nat) (blk : Nat → List Nat) (start : Nat)
    (h : start ≤ 2 ^ 64 - 1) : genFill rate blk [] start = (true, []) := by
  unfold genFill
  rw [if_neg (by simp; omega), if_neg (by simp), fillGo,
    dif_neg (by rintro ⟨h1, h2⟩; simp at h2; omega), if_pos (by simp)]

theorem genApply_nil (rate : Nat) (blk : Nat → List Nat) (aply : List Nat → Nat → List Nat)
    (start : Nat) (h : start ≤ 2 ^ 64 - 1) : genApply rate blk aply [] start = (true, []) := by
  unfold genApply
  rw [if_neg (by simp; omega), if_neg (by simp), applyGo,
    dif_neg (by rintro ⟨h1, h2⟩; simp at h2; omega), if_pos (by simp)]

theorem zipWith_xor_comm (l l' : List Nat) :
    List.zipWith Nat.xor l l' = List.zipWith Nat.xor l' l := by
  induction l generalizing l' with
  | nil => cases l' <;> simp
  | cons x xs ih =>
    cases l' with
    | nil => simp
    | cons y ys =>
      simp only [List.zipWith_cons_cons, List.cons.injEq]
      exact ⟨Nat.xor_comm x y, ih ys⟩

theorem xor_group (k x : Nat) (grp : List Nat) (hlen : grp.length = k)
    (hb : ∀ b ∈ grp, b < 256) :
    leBytes k (x ^^^ leVal grp) = List.zipWith Nat.xor grp (leBytes k x) := by
  rw [leBytes_xor,
    show leBytes k (leVal grp) = grp from by rw [← hlen]; exact leBytes_leVal grp hb]
  exact zipWith_xor_comm _ _

theorem flatMap_range_xor (k : Nat) (_hk : 0 < k) :
    ∀ (n : Nat) (g : Nat → Nat) (chunk : List Nat),
      chunk.length = n * k → (∀ x ∈ chunk, x < 256) →
      (List.range n).flatMap (fun i => leBytes k (g i ^^^ leVal ((chunk.drop (k * i)).take k)))
        = List.zipWith Nat.xor chunk ((List.range n).flatMap (fun i => leBytes k (g i))) := by
  intro n
  induction n with
  | zero =>
    intro g chunk hlen hb
    simp only [Nat.zero_mul] at hlen
    simp [List.eq_nil_of_length_eq_zero hlen]
  | succ m ih =>
    intro g chunk hlen hb
    have hck : k ≤ chunk.length := by
      rw [hlen]
      calc k = 1 * k := (Nat.one_mul k).symm
        _ ≤ (m + 1) * k := Nat.mul_le_mul_right k (by omega)
    have htl : (chunk.take k).length = k := by
      simp only [List.length_take]
      omega
    rw [flatMap_range_succ, flatMap_range_succ]
    have hhead : leBytes k (g 0 ^^^ leVal ((chunk.drop (k * 0)).take k))
        = List.zipWith Nat.xor (chunk.take k) (leBytes k (g 0)) := by
      rw [Nat.mul_zero, List.drop_zero]
      exact xor_group k (g 0) (chunk.take k) htl
        (fun x hx => hb x (List.take_subset _ _ hx))
    have htail : (List.range m).flatMap
          (fun i => leBytes k (g (i + 1) ^^^ leVal ((chunk.drop (k * (i + 1))).take k)))
        = List.zipWith Nat.xor (chunk.drop k)
            ((List.range m).flatMap (fun i => leBytes k (g (i + 1)))) := by
      have hfun : (fun i => leBytes k (g (i + 1) ^^^ leVal ((chunk.drop (k * (i + 1))).take k)))
          = (fun i => leBytes k (g (i + 1) ^^^ leVal (((chunk.drop k).drop (k * i)).take k))) := by
        funext i
        rw [List.drop_drop, show k * (i + 1) = k + k * i from by ring]
      rw [hfun]
      apply ih (fun i => g (i + 1)) (chunk.drop k)
      · simp only [List.length_drop, hlen]
        rw [Nat.succ_mul]
        omega
      · exact fun x hx => hb x (List.drop_subset _ _ hx)
    rw [hhead, htail]
    conv_rhs => rw [← List.take_append_drop k chunk]
    rw [List.zipWith_append _ _ _ _ _ (by rw [htl, leBytes_length])]

/-- Model of building a zero-initialised chunk buffer, copying the context
bytes into its front, and writing the `0x80` marker right after them
(`let mut buf = [0u8; n]; buf[..len].copy_from_slice(bytes); buf[len] = 0x80;`);
`none` when the marker write is out of bounds. -/
def padChunk (n : Nat) (bytes : List Nat) : Option (List Nat) := do
  let buf ← copyInto (List.replicate n 0) bytes
  setAt buf bytes.length 0x80

namespace Ascon

/-- The 5-lane ASCON state (`st: [u64; 5]`). -/
structure St where
  x0 : Nat
  x1 : Nat
  x2 : Nat
  x3 : Nat
  x4 : Nat
deriving DecidableEq

def M64 : Nat := 2 ^ 64

/-- Bitwise complement on `u64` (`!x`). -/
def not64 (x : Nat) : Nat := x ^^^ (M64 - 1)

/-- `u64::rotate_right`. -/
def rotr64 (x n : Nat) : Nat := ((x >>> n) ||| (x <<< (64 - n))) % M64

/-- The ASCON round constants `RKS`. -/
def RKS : List Nat :=
  [0xf0, 0xe1, 0xd2, 0xc3, 0xb4, 0xa5, 0x96, 0x87, 0x78, 0x69, 0x5a, 0x4b]

/-- Transcription of `StreamCipher::round`. -/
def round (s : St) (rk : Nat) : St :=
  let x2a := s.x2 ^^^ rk
  let x0a := s.x0 ^^^ s.x4
  let x4a := s.x4 ^^^ s.x3
  let x2b := x2a ^^^ s.x1
  let t0 := x0a ^^^ (not64 s.x1 &&& x2b)
  let t1 := s.x1 ^^^ (not64 x2b &&& s.x3)
  let t2 := x2b ^^^ (not64 s.x3 &&& x4a)
  let t3 := s.x3 ^^^ (not64 x4a &&& x0a)
  let t4 := x4a ^^^ (not64 x0a &&& s.x1)
  let t1b := t1 ^^^ t0
  let t3b := t3 ^^^ t2
  let t0b := t0 ^^^ t4
  let x2c := t2 ^^^ rotr64 t2 (6 - 1)
  let x3c := t3b ^^^ rotr64 t3b (17 - 10)
  let x4c := t4 ^^^ rotr64 t4 (41 - 7)
  let x0c := t0b ^^^ rotr64 t0b (28 - 19)
  let x1c := t1b ^^^ rotr64 t1b (61 - 39)
  let x2d := t2 ^^^ rotr64 x2c 1
  let x3d := t3b ^^^ rotr64 x3c 10
  let x4d := t4 ^^^ rotr64 x4c 7
  let x0d := t0b ^^^ rotr64 x0c 19
  let x1d := t1b ^^^ rotr64 x1c 39
  ⟨x0d, x1d, not64 x2d, x3d, x4d⟩

/-- Transcription of `StreamCipher::permute`: all 12 rounds. -/
def permute (s : St) : St := RKS.foldl round s

/-- Transcription of `StreamCipher::permute_r`: the rounds for `RKS[0..8]`. -/
def permute_r (s : St) : St := (RKS.take 8).foldl round s

/-- The fixed initial state of `StreamCipher::new`. -/
def init : St :=
  ⟨0xb57e273b814cd416, 0x2b51042562ae2420, 0x66a3a7768ddf2218,
    0x5aad0a7a8153650c, 0x4f3e0e32539493b6⟩

/-- XOR of the 32-byte key into lanes 0-3 (both whitening steps of `new`). -/
def xorKey (s : St) (key : List Nat) : St :=
  { s with
    x0 := s.x0 ^^^ leVal (key.take 8)
    x1 := s.x1 ^^^ leVal ((key.drop 8).take 8)
    x2 := s.x2 ^^^ leVal ((key.drop 16).take 8)
    x3 := s.x3 ^^^ leVal ((key.drop 24).take 8) }

/-- One unfolding step of the `while context.len() > 16` absorption loop of
`new`, with structural recursion on a fuel argument so that the definition
reduces by computation; the loop consumes 16 bytes per iteration, so any fuel
of at least `context.length` is beyond the iteration count. -/
def absorbLoopGo : Nat → St → List Nat → St × List Nat
  | 0, s, context => (s, context)
  | fuel + 1, s, context =>
    if 16 < context.length then
      let part := context.take 16
      let s2 := permute { s with
        x3 := s.x3 ^^^ leVal (part.take 8)
        x4 := s.x4 ^^^ leVal ((part.drop 8).take 8) }
      absorbLoopGo fuel s2 (context.drop 16)
    else (s, context)

/-- The `while context.len() > 16` absorption loop of `new`. -/
def absorbLoop (s : St) (context : List Nat) : St × List Nat :=
  absorbLoopGo context.length s context

/-- Transcription of `StreamCipher::new`; `none` models a panic. -/
def new (key context : List Nat) : Option St := do
  let s := xorKey init key
  let s2 ←
    if context.length < 8 then do
      let buf ← padChunk 8 context
      pure (permute { s with x4 := s.x4 ^^^ leVal buf })
    else do
      let buf ← copyInto (List.replicate 8 0) (context.take 8)
      let sa := permute { s with x4 := s.x4 ^^^ leVal buf }
      let (sb, rem) := absorbLoop sa (context.drop 8)
      let buf2 ← padChunk 16 rem
      pure (permute { sb with
        x3 := sb.x3 ^^^ leVal (buf2.take 8)
        x4 := sb.x4 ^^^ leVal ((buf2.drop 8).take 8) })
  pure (xorKey s2 key)

/-- Transcription of `StreamCipher::squeeze_rate` / `store_rate`: the 16-byte
keystream block for one block offset. -/
def squeeze_rate (s : St) (block_offset : Nat) : List Nat :=
  let t := permute_r { s with x4 := s.x4 ^^^ block_offset }
  leBytes 8 t.x0 ++ leBytes 8 t.x1

/-- Transcription of `StreamCipher::apply_rate`: XOR one 16-byte block of the
keystream into the buffer, lane by lane. -/
def apply_rate (s : St) (out : List Nat) (block_offset : Nat) : List Nat :=
  let t := permute_r { s with x4 := s.x4 ^^^ block_offset }
  let out0 := leVal (out.take 8)
  let out1 := leVal ((out.drop 8).take 8)
  leBytes 8 (t.x0 ^^^ out0) ++ leBytes 8 (t.x1 ^^^ out1)

/-- Transcription of `StreamCipher::fill`. -/
def fill (s : St) (out : List Nat) (start_offset : Nat) : Bool × List Nat :=
  genFill 16 (squeeze_rate s) out start_offset

/-- Transcription of `StreamCipher::apply_keystream`. -/
def apply_keystream (s : St) (out : List Nat) (start_offset : Nat) : Bool × List Nat :=
  genApply 16 (squeeze_rate s) (apply_rate s) out start_offset

theorem ascon_squeeze_rate_length (s : St) (b : Nat) : (squeeze_rate s b).length = 16 := by
  simp [squeeze_rate, leBytes_length]

theorem ascon_apply_rate_eq (s : St) (chunk : List Nat) (b : Nat) (hlen : chunk.length = 16)
    (hb : ∀ x ∈ chunk, x < 256) :
    apply_rate s chunk b = List.zipWith Nat.xor chunk (squeeze_rate s b) := by
  simp only [apply_rate, squeeze_rate]
  have h8 : (chunk.take 8).length = 8 := by
    simp only [List.length_take]
    omega
  have hd8len : (chunk.drop 8).length = 8 := by
    simp only [List.length_drop, hlen]
  have hd8 : (chunk.drop 8).take 8 = chunk.drop 8 :=
    List.take_of_length_le (by omega)
  rw [hd8, xor_group 8 _ (chunk.take 8) h8 (fun x hx => hb x (List.take_subset _ _ hx)),
    xor_group 8 _ (chunk.drop 8) hd8len (fun x hx => hb x (List.drop_subset _ _ hx))]
  conv_rhs => rw [← List.take_append_drop 8 chunk]
  rw [List.zipWith_append _ _ _ _ _ (by rw [h8, leBytes_length])]

end Ascon

namespace Keccak

/-- The fixed initial state of `StreamCipher::new` (PI decimals). -/
def init : List Nat :=
  [0x243f6a8885a308d3, 0x13198a2e03707344, 0xa4093822299f31d0, 0x082efa98ec4e6c89,
   0x452821e638d01377, 0xbe5466cf34e90c6c, 0xc0ac29b7c97c50dd, 0x3f84d5b5b5470917,
   0x9216d5d98979fb1b, 0xd1310ba698dfb5ac, 0x2ffd72dbd01adfb7, 0xb8e1afed6a267e96,
   0xba7c9045f12c7f99, 0x24a19947b3916cf7, 0x0801f2e2858efc16, 0x636920d871574e69,
   0xa458fea3f4933d7e, 0x0d95748f728eb658, 0x718bcd5882154aee, 0x7b54a41dc25a59b5,
   0x9c30d5392af26013, 0xc5d1b023286085f0, 0xca417918b8db38ef, 0x8e79dcb0603a180e,
   0x6c9e0e8bb01e8a3e]

/-- XOR of the 32-byte key into lanes 0-3 (both whitening steps of `new`). -/
def xorKey (st key : List Nat) : List Nat :=
  let st := st.set 0 (st.getD 0 0 ^^^ leVal (key.take 8))
  let st := st.set 1 (st.getD 1 0 ^^^ leVal ((key.drop 8).take 8))
  let st := st.set 2 (st.getD 2 0 ^^^ leVal ((key.drop 16).take 8))
  st.set 3 (st.getD 3 0 ^^^ leVal ((key.drop 24).take 8))

/-- The absorption loop `for i in 0..25 - 4 { st[4 + i] ^= buf[i * 8..][0..8] }`. -/
def absorb21 (st buf : List Nat) : Option (List Nat) :=
  (List.range 21).foldlM (fun s i => do
    let w ← sliceRange buf (i * 8) 8
    pure (s.set (4 + i) (s.getD (4 + i) 0 ^^^ leVal w))) st

/-- The absorption loop `for i in 0..25 { st[i] ^= buf[i * 8..][0..8] }` used
by the multi-chunk path of `new`. -/
def absorb25 (st buf : List Nat) : Option (List Nat) :=
  (List.range 25).foldlM (fun s i => do
    let w ← sliceRange buf (i * 8) 8
    pure (s.set i (s.getD i 0 ^^^ leVal w))) st

/-- One unfolding step of the `while context.len() > 168` absorption loop of
`new`, with structural recursion on a fuel argument so that the definition
reduces by computation; the loop consumes 168 bytes per iteration, so any
fuel of at least `context.length` is beyond the iteration count.  The
Keccak-p permutation `p` lives in the external `keccak` crate and is passed
as a parameter (the spec treats it as an opaque deterministic bijection). -/
def absorbLoopGo (p : List Nat → List Nat) :
    Nat → List Nat → List Nat → Option (List Nat × List Nat)
  | 0, st, context => some (st, context)
  | fuel + 1, st, context =>
    if 168 < context.length then do
      let buf ← copyInto (List.replicate 168 0) (context.take 168)
      let st2 ← absorb25 st buf
      absorbLoopGo p fuel (p st2) (context.drop 168)
    else some (st, context)

/-- The `while context.len() > 168` absorption loop of `new`. -/
def absorbLoop (p : List Nat → List Nat) (st context : List Nat) :
    Option (List Nat × List Nat) :=
  absorbLoopGo p context.length st context

/-- Transcription of `StreamCipher::new`; `none` models a panic. -/
def new (p : List Nat → List Nat) (key context : List Nat) : Option (List Nat) := do
  let st := xorKey init key
  let st2 ←
    if context.length < 168 then do
      let buf ← padChunk 168 context
      let sa ← absorb21 st buf
      pure (p sa)
    else do
      let buf ← copyInto (List.replicate 168 0) (context.take 168)
      let sa ← absorb21 st buf
      let (sb, rem) ← absorbLoop p (p sa) (context.drop 168)
      let buf2 ← copyInto (List.replicate 168 0) rem
      let sc ← absorb25 sb buf2
      pure (p sc)
  pure (xorKey st2 key)

/-- Transcription of `StreamCipher::squeeze_rate` / `store_rate`: XOR the
block offset into lane 4, permute, serialise lanes 5-24 (160 bytes). -/
def squeeze_rate (p : List Nat → List Nat) (st : List Nat) (block_offset : Nat) :
    List Nat :=
  let t := p (st.set 4 (st.getD 4 0 ^^^ block_offset))
  (List.range 20).flatMap (fun i => leBytes 8 (t.getD (5 + i) 0))

/-- Transcription of `StreamCipher::apply_rate`. -/
def apply_rate (p : List Nat → List Nat) (st : List Nat) (out : List Nat)
    (block_offset : Nat) : List Nat :=
  let t := p (st.set 4 (st.getD 4 0 ^^^ block_offset))
  (List.range 20).flatMap
    (fun i => leBytes 8 (t.getD (5 + i) 0 ^^^ leVal ((out.drop (8 * i)).take 8)))

/-- Transcription of `StreamCipher::fill`. -/
def fill (p : List Nat → List Nat) (st out : List Nat) (start_offset : Nat) :
    Bool × List Nat :=
  genFill 160 (squeeze_rate p st) out start_offset

/-- Transcription of `StreamCipher::apply_keystream`. -/
def apply_keystream (p : List Nat → List Nat) (st out : List Nat) (start_offset : Nat) :
    Bool × List Nat :=
  genApply 160 (squeeze_rate p st) (apply_rate p st) out start_offset

theorem keccak_squeeze_rate_length (p : List Nat → List Nat) (st : List Nat) (b : Nat) :
    (squeeze_rate p st b).length = 160 := by
  simp only [squeeze_rate]
  rw [length_flatMap_leBytes]

theorem keccak_apply_rate_eq (p : List Nat → List Nat) (st : List Nat) (chunk : List Nat)
    (b : Nat) (hlen : chunk.length = 160) (hb : ∀ x ∈ chunk, x < 256) :
    apply_rate p st chunk b = List.zipWith Nat.xor chunk (squeeze_rate p st b) := by
  simp only [apply_rate, squeeze_rate]
  exact flatMap_range_xor 8 (by norm_num) 20 _ chunk (by omega) hb

end Keccak

namespace ChaCha

def M32 : Nat := 2 ^ 32

/-- `u32::wrapping_add`. -/
def add32 (a b : Nat) : Nat := (a + b) % M32

/-- `u32::rotate_left`. -/
def rotl32 (x n : Nat) : Nat := ((x <<< n) ||| (x >>> (32 - n))) % M32

/-- The ChaCha constants. -/
def CONSTANTS : List Nat := [0x61707865, 0x3320646e, 0x79622d32, 0x6b206574]

/-- One add-rotate-XOR quarter-round block of `StreamCipher::permute`, acting
on the lanes at indices `a b c d` (the `R` array of the source). -/
def qround (st : List Nat) (a b c d : Nat) : List Nat :=
  let xa := add32 (st.getD a 0) (st.getD b 0)
  let xd := rotl32 (st.getD d 0 ^^^ xa) 16
  let xc := add32 (st.getD c 0) xd
  let xb := rotl32 (st.getD b 0 ^^^ xc) 12
  let xa2 := add32 xa xb
  let xd2 := rotl32 (xd ^^^ xa2) 8
  let xc2 := add32 xc xd2
  let xb2 := rotl32 (xb ^^^ xc2) 7
  (((st.set a xa2).set b xb2).set c xc2).set d xd2

/-- One iteration of the `for _ in 0..12 / 2` loop of `permute`: the four
column quarter-rounds followed by the four diagonal quarter-rounds. -/
def double_round (st : List Nat) : List Nat :=
  let st := qround st 0 4 8 12
  let st := qround st 1 5 9 13
  let st := qround st 2 6 10 14
  let st := qround st 3 7 11 15
  let st := qround st 0 5 10 15
  let st := qround st 1 6 11 12
  let st := qround st 2 7 8 13
  qround st 3 4 9 14

/-- Transcription of `StreamCipher::permute`: `12 / 2` double-rounds, then the
feed-forward addition of the saved pre-permutation state (`mask`). -/
def permute (st : List Nat) : List Nat :=
  let x := (List.range (12 / 2)).foldl (fun s _ => double_round s) st
  List.zipWith add32 x st

/-- Transcription of `StreamCipher::new` (fixed-size 8-byte context id;
infallible). -/
def new (key id : List Nat) : List Nat :=
  [CONSTANTS.getD 0 0, CONSTANTS.getD 1 0, CONSTANTS.getD 2 0, CONSTANTS.getD 3 0,
   leVal (key.take 4), leVal ((key.drop 4).take 4),
   leVal ((key.drop 8).take 4), leVal ((key.drop 12).take 4),
   leVal ((key.drop 16).take 4), leVal ((key.drop 20).take 4),
   leVal ((key.drop 24).take 4), leVal ((key.drop 28).take 4),
   0, 0,
   leVal (id.take 4), leVal ((id.drop 4).take 4)]

/-- Transcription of `StreamCipher::squeeze_rate` / `store_rate`: load the two
32-bit halves of the block offset into lanes 12 and 13, permute, serialise all
16 lanes (64 bytes). -/
def squeeze_rate (st : List Nat) (block_offset : Nat) : List Nat :=
  let t := permute ((st.set 12 (block_offset % M32)).set 13 ((block_offset >>> 32) % M32))
  (List.range 16).flatMap (fun i => leBytes 4 (t.getD i 0))

/-- Transcription of `StreamCipher::apply_rate`. -/
def apply_rate (st : List Nat) (out : List Nat) (block_offset : Nat) : List Nat :=
  let t := permute ((st.set 12 (block_offset % M32)).set 13 ((block_offset >>> 32) % M32))
  (List.range 16).flatMap
    (fun i => leBytes 4 (leVal ((out.drop (4 * i)).take 4) ^^^ t.getD i 0))

/-- Transcription of `StreamCipher::fill`. -/
def fill (st out : List Nat) (start_offset : Nat) : Bool × List Nat :=
  genFill 64 (squeeze_rate st) out start_offset

/-- Transcription of `StreamCipher::apply_keystream`. -/
def apply_keystream (st out : List Nat) (start_offset : Nat) : Bool × List Nat :=
  genApply 64 (squeeze_rate st) (apply_rate st) out start_offset

theorem chacha_squeeze_rate_length (st : List Nat) (b : Nat) :
    (squeeze_rate st b).length = 64 := by
  simp only [squeeze_rate]
  rw [length_flatMap_leBytes]

theorem chacha_apply_rate_eq (st : List Nat) (chunk : List Nat) (b : Nat)
    (hlen : chunk.length = 64) (hb : ∀ x ∈ chunk, x < 256) :
    apply_rate st chunk b = List.zipWith Nat.xor chunk (squeeze_rate st b) := by
  simp only [apply_rate, squeeze_rate]
  have hswap : (fun i => leBytes 4
        (leVal ((chunk.drop (4 * i)).take 4)
          ^^^ (permute ((st.set 12 (b % M32)).set 13 ((b >>> 32) % M32))).getD i 0))
      = (fun i => leBytes 4
        ((permute ((st.set 12 (b % M32)).set 13 ((b >>> 32) % M32))).getD i 0
          ^^^ leVal ((chunk.drop (4 * i)).take 4))) := by
    funext i
    rw [Nat.xor_comm]
  rw [hswap]
  exact flatMap_range_xor 4 (by norm_num) 16 _ chunk (by omega) hb

end ChaCha

theorem genFill_fst_true_iff (rate : Nat) (blk : Nat → List Nat) (out : List Nat)
    (start : Nat) :
    (genFill rate blk out start).1 = true ↔ start + out.length ≤ 2 ^ 64 - 1 := by
  have hf := genFill_fst_false_iff rate blk out start
  cases hb : (genFill rate blk out start).1 <;> rw [hb] at hf <;> simp at hf ⊢ <;> omega

theorem genApply_fst_true_iff (rate : Nat) (blk : Nat → List Nat)
    (aply : List Nat → Nat → List Nat) (out : List Nat) (start : Nat) :
    (genApply rate blk aply out start).1 = true ↔ start + out.length ≤ 2 ^ 64 - 1 := by
  have hf := genApply_fst_false_iff rate blk aply out start
  cases hb : (genApply rate blk aply out start).1 <;> rw [hb] at hf <;> simp at hf ⊢ <;> omega

theorem genFill_unmodified (rate : Nat) (blk : Nat → List Nat) (out : List Nat)
    (start : Nat) (h : (genFill rate blk out start).1 = false) :
    (genFill rate blk out start).2 = out := by
  rw [genFill_err rate blk out start ((genFill_fst_false_iff rate blk out start).mp h)]

theorem genApply_unmodified (rate : Nat) (blk : Nat → List Nat)
    (aply : List Nat → Nat → List Nat) (out : List Nat) (start : Nat)
    (h : (genApply rate blk aply out start).1 = false) :
    (genApply rate blk aply out start).2 = out := by
  rw [genApply_err rate blk aply out start
    ((genApply_fst_false_iff rate blk aply out start).mp h)]

theorem genFill_shift (rate : Nat) (blk : Nat → List Nat) (hr : 0 < rate)
    (H1 : ∀ b, (blk b).length = rate) (o N : Nat) (bufa bufb : List Nat)
    (hN : 1 ≤ N) (ha : bufa.length = N) (hb2 : bufb.length = N - 1)
    (hov : o + N ≤ 2 ^ 64 - 1) :
    ((genFill rate blk bufa o).2).drop 1 = (genFill rate blk bufb (o + 1)).2 := by
  rw [genFill_eq rate blk bufa o hr H1 (by omega),
    genFill_eq rate blk bufb (o + 1) hr H1 (by omega)]
  apply List.ext_getElem
  · simp only [List.length_drop, List.length_map, List.length_range, ha, hb2]
  · intro i h1 h2
    simp only [List.getElem_drop, List.getElem_map, List.getElem_range]
    congr 1
    omega

theorem genFill_seek (rate : Nat) (blk : Nat → List Nat) (hr : 0 < rate)
    (H1 : ∀ b, (blk b).length = rate) (o n : Nat) (buf big : List Nat)
    (hb1 : buf.length = n) (hb2 : big.length = o + n)
    (hov : o + n ≤ 2 ^ 64 - 1) :
    (genFill rate blk buf o).2 = ((genFill rate blk big 0).2).drop o := by
  rw [genFill_eq rate blk buf o hr H1 (by omega),
    genFill_eq rate blk big 0 hr H1 (by omega)]
  apply List.ext_getElem
  · simp only [List.length_drop, List.length_map, List.length_range, hb1, hb2]
    omega
  · intro i h1 h2
    simp only [List.getElem_drop, List.getElem_map, List.getElem_range]
    congr 1
    omega

theorem foldl_take_eq_range {α : Type} (f : α → Nat → α) (l : List Nat) (n : Nat)
    (h : n ≤ l.length) (init : α) :
    (l.take n).foldl f init = (List.range n).foldl (fun s i => f s (l.getD i 0)) init := by
  rw [take_eq_map_getD l n h, List.foldl_map]

theorem foldl_const_iterate {α : Type} (f : α → α) (n : Nat) (x : α) :
    (List.range n).foldl (fun s _ => f s) x = f^[n] x := by
  induction n with
  | zero => simp
  | succ m ih =>
    rw [List.range_succ, List.foldl_append]
    simp [ih, Function.iterate_succ_apply']

theorem set_append_length (l l' : List Nat) (v : Nat) :
    (l ++ l').set l.length v = l ++ l'.set 0 v := by
  induction l with
  | nil => simp
  | cons x xs ih =>
    simp only [List.cons_append, List.length_cons, List.set_cons_succ]
    rw [ih]

theorem padChunk_eq (n : Nat) (bytes : List Nat) (h : bytes.length < n) :
    padChunk n bytes
      = some (bytes ++ 0x80 :: List.replicate (n - bytes.length - 1) 0) := by
  unfold padChunk
  rw [copyInto_eq _ _ (by simp only [List.length_replicate]; omega)]
  simp only [Option.bind_eq_bind, Option.some_bind]
  rw [List.drop_replicate]
  rw [setAt_eq _ _ _
    (by simp only [List.length_append, List.length_replicate]; omega)]
  rw [set_append_length]
  congr 2
  have hsplit : n - bytes.length = (n - bytes.length - 1) + 1 := by omega
  rw [hsplit, List.replicate_succ]
  rfl

theorem flatMap_leBytes_getD (k : Nat) (hk : 0 < k) :
    ∀ (n : Nat) (g : Nat → Nat) (i : Nat), i < n * k →
      ((List.range n).flatMap (fun j => leBytes k (g j))).getD i 0
        = (leBytes k (g (i / k))).getD (i % k) 0 := by
  intro n
  induction n with
  | zero =>
    intro g i hi
    simp at hi
  | succ m ih =>
    intro g i hi
    rw [flatMap_range_succ]
    by_cases hik : i < k
    · rw [List.getD_append _ _ _ _ (by rw [leBytes_length]; exact hik),
        Nat.div_eq_of_lt hik, Nat.mod_eq_of_lt hik]
    · have hki : k ≤ i := by omega
      rw [List.getD_append_right _ _ _ _ (by rw [leBytes_length]; exact hki),
        leBytes_length]
      have hrec := ih (fun j => g (j + 1)) (i - k)
        (by rw [Nat.succ_mul] at hi; omega)
      rw [hrec, Nat.div_eq_sub_div hk hki, Nat.mod_eq_sub_mod hki]

theorem keccak_absorb_fold_aux :
    ∀ (l : List Nat) (st buf : List Nat),
      (∀ i ∈ l, i * 8 + 8 ≤ buf.length) →
      ∃ st2,
        (l.foldlM (fun s i => do
            let w ← sliceRange buf (i * 8) 8
            pure (s.set (4 + i) (s.getD (4 + i) 0 ^^^ leVal w))) st) = some st2
          ∧ st2.length = st.length
          ∧ ∀ j, (∀ i ∈ l, 4 + i ≠ j) → st2.getD j 0 = st.getD j 0 := by
  intro l
  induction l with
  | nil =>
    intro st buf hmem
    exact ⟨st, rfl, rfl, fun j _ => rfl⟩
  | cons i0 l ih =>
    intro st buf hmem
    have hs := sliceRange_eq buf (i0 * 8) 8 (hmem i0 (List.mem_cons_self i0 l))
    obtain ⟨st2, heq, hlen, hpres⟩ :=
      ih (st.set (4 + i0) (st.getD (4 + i0) 0 ^^^ leVal ((buf.drop (i0 * 8)).take 8))) buf
        (fun i hi => hmem i (List.mem_cons_of_mem _ hi))
    refine ⟨st2, ?_, ?_, ?_⟩
    · rw [List.foldlM_cons, hs]
      simpa using heq
    · rw [hlen, List.length_set]
    · intro j hj
      rw [hpres j (fun i hi => hj i (List.mem_cons_of_mem _ hi)),
        List.getD_eq_getElem?_getD, List.getElem?_set_ne (hj i0 (List.mem_cons_self i0 l)),
        ← List.getD_eq_getElem?_getD]

theorem keccak_absorb21_lane4 (st buf : List Nat) (hst : st.length = 25)
    (hbuf : buf.length = 168) :
    ∃ st2, Keccak.absorb21 st buf = some st2 ∧ st2.length = 25
      ∧ st2.getD 4 0 = st.getD 4 0 ^^^ leVal (buf.take 8) := by
  unfold Keccak.absorb21
  rw [show (21 : Nat) = 20 + 1 from rfl, List.range_succ_eq_map]
  rw [List.foldlM_cons, sliceRange_eq buf (0 * 8) 8 (by omega)]
  simp only [Nat.zero_mul, List.drop_zero, Nat.add_zero]
  obtain ⟨st2, heq, hlen, hpres⟩ := keccak_absorb_fold_aux
    ((List.range 20).map Nat.succ)
    (st.set 4 (st.getD 4 0 ^^^ leVal (buf.take 8))) buf
    (fun i hi => by
      simp only [List.mem_map, List.mem_range] at hi
      obtain ⟨a, ha, rfl⟩ := hi
      omega)
  refine ⟨st2, by simpa using heq, by rw [hlen, List.length_set, hst], ?_⟩
  rw [hpres 4 (fun i hi => by
    simp only [List.mem_map, List.mem_range] at hi
    obtain ⟨a, ha, rfl⟩ := hi
    omega)]
  rw [List.getD_eq_getElem _ 0 (by rw [List.length_set, hst]; omega)]
  exact List.getElem_set_self (by rw [List.length_set, hst]; omega)

/-- An all-zero 32-byte key, used for concrete evaluations of `new`. -/
def k0 : List Nat := List.replicate 32 0

set_option maxRecDepth 10000 in
/-- C1: the claim says Setup (`new`) is infallible for every 32-byte key and
every context length, with no out-of-bounds access while absorbing or padding
the final context chunk.  The code violates this: the ascon variant writes
the `0x80` marker at `buf[16]` in a 16-byte buffer whenever the final context
chunk is exactly full (context length `8 + 16k`, `k ≥ 1`, e.g. 24), and the
keccak variant's multi-chunk path reads `buf[i * 8..][0..8]` for `i` up to 24
from a 168-byte buffer, so every context of length ≥ 168 panics.  Both panics
are evaluated here (`none` = panic), next to immediately adjacent lengths
that succeed. -/
theorem claim_C1_new_panics :
    Ascon.new k0 (List.replicate 24 0) = none
      ∧ (Ascon.new k0 (List.replicate 23 0)).isSome = true
      ∧ (Ascon.new k0 (List.replicate 25 0)).isSome = true
      ∧ Keccak.new id k0 (List.replicate 168 0) = none
      ∧ (Keccak.new id k0 (List.replicate 167 0)).isSome = true := by
  refine ⟨?_, ?_, ?_, ?_, ?_⟩ <;> decide

set_option maxRecDepth 10000 in
/-- C5: the claim says every variant with variable-length context zero-pads
the final chunk and appends a single `0x80` marker immediately after the
context bytes, for every context length.  The first conjunct proves the
marker discipline of the code's `padChunk` pattern (used by ascon's final
chunks and keccak's short-context path).  The code fails the claim elsewhere:
the marker write itself is out of bounds when the final ascon chunk is
exactly full (context length 40 evaluates to a panic), and keccak's
multi-chunk path (context length 200) panics in its final absorption — as
written it also contains no marker write at all. -/
theorem claim_C5_padding_policy :
    (∀ (n : Nat) (ctx : List Nat), ctx.length < n →
        padChunk n ctx = some (ctx ++ 0x80 :: List.replicate (n - ctx.length - 1) 0))
      ∧ Ascon.new k0 (List.replicate 40 0) = none
      ∧ Keccak.new id k0 (List.replicate 200 0) = none := by
  refine ⟨fun n ctx h => padChunk_eq n ctx h, by decide, by decide⟩

/-- Witness for C5 at a concrete input: a 3-byte context padded into an
8-byte chunk carries the single `0x80` marker right after the context. -/
theorem claim_C5_witness :
    padChunk 8 [1, 2, 3] = some ([1, 2, 3] ++ 0x80 :: List.replicate 4 0) :=
  claim_C5_padding_policy.1 8 [1, 2, 3] (by decide)

/-- C2: for every variant, `fill` is bit-for-bit consistent with a single
infinite keystream: filling N bytes at offset o and then dropping the first
byte equals filling N-1 bytes at offset o+1 (shift consistency), and filling
the range [o, o+n) directly equals extracting that sub-range from a fill
over the containing range [0, o+n) (seek equivalence). -/
theorem claim_C2_stream_consistency :
    ((∀ (s : Ascon.St) (o N : Nat) (bufa bufb : List Nat),
        1 ≤ N → bufa.length = N → bufb.length = N - 1 → o + N ≤ 2 ^ 64 - 1 →
        ((Ascon.fill s bufa o).2).drop 1 = (Ascon.fill s bufb (o + 1)).2)
      ∧ (∀ (s : Ascon.St) (o n : Nat) (buf big : List Nat),
        buf.length = n → big.length = o + n → o + n ≤ 2 ^ 64 - 1 →
        (Ascon.fill s buf o).2 = ((Ascon.fill s big 0).2).drop o))
    ∧ ((∀ (p : List Nat → List Nat) (st : List Nat) (o N : Nat) (bufa bufb : List Nat),
        1 ≤ N → bufa.length = N → bufb.length = N - 1 → o + N ≤ 2 ^ 64 - 1 →
        ((Keccak.fill p st bufa o).2).drop 1 = (Keccak.fill p st bufb (o + 1)).2)
      ∧ (∀ (p : List Nat → List Nat) (st : List Nat) (o n : Nat) (buf big : List Nat),
        buf.length = n → big.length = o + n → o + n ≤ 2 ^ 64 - 1 →
        (Keccak.fill p st buf o).2 = ((Keccak.fill p st big 0).2).drop o))
    ∧ ((∀ (st : List Nat) (o N : Nat) (bufa bufb : List Nat),
        1 ≤ N → bufa.length = N → bufb.length = N - 1 → o + N ≤ 2 ^ 64 - 1 →
        ((ChaCha.fill st bufa o).2).drop 1 = (ChaCha.fill st bufb (o + 1)).2)
      ∧ (∀ (st : List Nat) (o n : Nat) (buf big : List Nat),
        buf.length = n → big.length = o + n → o + n ≤ 2 ^ 64 - 1 →
        (ChaCha.fill st buf o).2 = ((ChaCha.fill st big 0).2).drop o)) := by
  refine ⟨⟨?_, ?_⟩, ⟨?_, ?_⟩, ⟨?_, ?_⟩⟩
  · intro s o N bufa bufb hN ha hb hov
    exact genFill_shift 16 (Ascon.squeeze_rate s) (by norm_num)
      (fun b => Ascon.ascon_squeeze_rate_length s b) o N bufa bufb hN ha hb hov
  · intro s o n buf big hb1 hb2 hov
    exact genFill_seek 16 (Ascon.squeeze_rate s) (by norm_num)
      (fun b => Ascon.ascon_squeeze_rate_length s b) o n buf big hb1 hb2 hov
  · intro p st o N bufa bufb hN ha hb hov
    exact genFill_shift 160 (Keccak.squeeze_rate p st) (by norm_num)
      (fun b => Keccak.keccak_squeeze_rate_length p st b) o N bufa bufb hN ha hb hov
  · intro p st o n buf big hb1 hb2 hov
    exact genFill_seek 160 (Keccak.squeeze_rate p st) (by norm_num)
      (fun b => Keccak.keccak_squeeze_rate_length p st b) o n buf big hb1 hb2 hov
  · intro st o N bufa bufb hN ha hb hov
    exact genFill_shift 64 (ChaCha.squeeze_rate st) (by norm_num)
      (fun b => ChaCha.chacha_squeeze_rate_length st b) o N bufa bufb hN ha hb hov
  · intro st o n buf big hb1 hb2 hov
    exact genFill_seek 64 (ChaCha.squeeze_rate st) (by norm_num)
      (fun b => ChaCha.chacha_squeeze_rate_length st b) o n buf big hb1 hb2 hov

/-- Witness for C2 at a concrete input: on the ascon variant, a 2-byte fill
at offset 0 shifted by one byte equals a 1-byte fill at offset 1. -/
theorem claim_C2_witness :
    ((Ascon.fill Ascon.init [0, 0] 0).2).drop 1 = (Ascon.fill Ascon.init [0] 1).2 :=
  claim_C2_stream_consistency.1.1 Ascon.init 0 2 [0, 0] [0]
    (by decide) (by decide) (by decide) (by decide)

/-- C3: for every variant, on inputs where the calls succeed,
`apply_keystream` leaves the buffer equal to its original contents XORed
byte-for-byte with the keystream `fill` would produce at the same offset,
despite the special-cased lane-wise in-place XOR path (`apply_rate`). -/
theorem claim_C3_apply_fill_duality :
    (∀ (s : Ascon.St) (buf : List Nat) (o : Nat),
        (∀ x ∈ buf, x < 256) → o + buf.length ≤ 2 ^ 64 - 1 →
        Ascon.apply_keystream s buf o
          = (true, List.zipWith Nat.xor buf (Ascon.fill s buf o).2))
    ∧ (∀ (p : List Nat → List Nat) (st : List Nat) (buf : List Nat) (o : Nat),
        (∀ x ∈ buf, x < 256) → o + buf.length ≤ 2 ^ 64 - 1 →
        Keccak.apply_keystream p st buf o
          = (true, List.zipWith Nat.xor buf (Keccak.fill p st buf o).2))
    ∧ (∀ (st : List Nat) (buf : List Nat) (o : Nat),
        (∀ x ∈ buf, x < 256) → o + buf.length ≤ 2 ^ 64 - 1 →
        ChaCha.apply_keystream st buf o
          = (true, List.zipWith Nat.xor buf (ChaCha.fill st buf o).2)) := by
  refine ⟨?_, ?_, ?_⟩
  · intro s buf o hb hov
    exact genApply_eq 16 (Ascon.squeeze_rate s) (Ascon.apply_rate s) buf o (by norm_num)
      (fun b => Ascon.ascon_squeeze_rate_length s b)
      (fun chunk b hl hby => Ascon.ascon_apply_rate_eq s chunk b hl hby) hb hov
  · intro p st buf o hb hov
    exact genApply_eq 160 (Keccak.squeeze_rate p st) (Keccak.apply_rate p st) buf o
      (by norm_num) (fun b => Keccak.keccak_squeeze_rate_length p st b)
      (fun chunk b hl hby => Keccak.keccak_apply_rate_eq p st chunk b hl hby) hb hov
  · intro st buf o hb hov
    exact genApply_eq 64 (ChaCha.squeeze_rate st) (ChaCha.apply_rate st) buf o
      (by norm_num) (fun b => ChaCha.chacha_squeeze_rate_length st b)
      (fun chunk b hl hby => ChaCha.chacha_apply_rate_eq st chunk b hl hby) hb hov

/-- Witness for C3 at a concrete input: applying the ascon keystream in place
to the 2-byte buffer [1, 2] at offset 5 XORs it with the fill output. -/
theorem claim_C3_witness :
    Ascon.apply_keystream Ascon.init [1, 2] 5
      = (true, List.zipWith Nat.xor [1, 2] (Ascon.fill Ascon.init [1, 2] 5).2) :=
  claim_C3_apply_fill_duality.1 Ascon.init [1, 2] 5 (by decide) (by decide)

/-- C4: for every variant, `fill` and `apply_keystream` return the overflow
error exactly when `start_offset + buffer length` leaves the representable
u64 range (exceeds `2^64 - 1`); a call sized so that
`start_offset + length = 2^64 - 1` (exactly at the boundary) succeeds.  In
particular any non-empty buffer at `start_offset = u64::MAX` and any buffer
of length ≥ 2 at `u64::MAX - len + 1 = 2^64 - len` overflow. -/
theorem claim_C4_overflow_exactness :
    ((∀ (s : Ascon.St) (buf : List Nat) (o : Nat),
        ((Ascon.fill s buf o).1 = false ↔ 2 ^ 64 - 1 < o + buf.length))
      ∧ (∀ (s : Ascon.St) (buf : List Nat) (o : Nat),
        ((Ascon.apply_keystream s buf o).1 = false ↔ 2 ^ 64 - 1 < o + buf.length))
      ∧ (∀ (s : Ascon.St) (buf : List Nat), buf.length ≤ 2 ^ 64 - 1 →
        (Ascon.fill s buf (2 ^ 64 - 1 - buf.length)).1 = true))
    ∧ ((∀ (p : List Nat → List Nat) (st buf : List Nat) (o : Nat),
        ((Keccak.fill p st buf o).1 = false ↔ 2 ^ 64 - 1 < o + buf.length))
      ∧ (∀ (p : List Nat → List Nat) (st buf : List Nat) (o : Nat),
        ((Keccak.apply_keystream p st buf o).1 = false ↔ 2 ^ 64 - 1 < o + buf.length))
      ∧ (∀ (p : List Nat → List Nat) (st buf : List Nat), buf.length ≤ 2 ^ 64 - 1 →
        (Keccak.fill p st buf (2 ^ 64 - 1 - buf.length)).1 = true))
    ∧ ((∀ (st buf : List Nat) (o : Nat),
        ((ChaCha.fill st buf o).1 = false ↔ 2 ^ 64 - 1 < o + buf.length))
      ∧ (∀ (st buf : List Nat) (o : Nat),
        ((ChaCha.apply_keystream st buf o).1 = false ↔ 2 ^ 64 - 1 < o + buf.length))
      ∧ (∀ (st buf : List Nat), buf.length ≤ 2 ^ 64 - 1 →
        (ChaCha.fill st buf (2 ^ 64 - 1 - buf.length)).1 = true)) := by
  refine ⟨⟨?_, ?_, ?_⟩, ⟨?_, ?_, ?_⟩, ⟨?_, ?_, ?_⟩⟩
  · intro s buf o
    exact genFill_fst_false_iff 16 (Ascon.squeeze_rate s) buf o
  · intro s buf o
    exact genApply_fst_false_iff 16 (Ascon.squeeze_rate s) (Ascon.apply_rate s) buf o
  · intro s buf h
    exact (genFill_fst_true_iff 16 (Ascon.squeeze_rate s) buf _).mpr (by omega)
  · intro p st buf o
    exact genFill_fst_false_iff 160 (Keccak.squeeze_rate p st) buf o
  · intro p st buf o
    exact genApply_fst_false_iff 160 (Keccak.squeeze_rate p st) (Keccak.apply_rate p st)
      buf o
  · intro p st buf h
    exact (genFill_fst_true_iff 160 (Keccak.squeeze_rate p st) buf _).mpr (by omega)
  · intro st buf o
    exact genFill_fst_false_iff 64 (ChaCha.squeeze_rate st) buf o
  · intro st buf o
    exact genApply_fst_false_iff 64 (ChaCha.squeeze_rate st) (ChaCha.apply_rate st) buf o
  · intro st buf h
    exact (genFill_fst_true_iff 64 (ChaCha.squeeze_rate st) buf _).mpr (by omega)

/-- Witness for C4 at a concrete input: an ascon fill of one byte placed
exactly at the end of the u64 byte-address space succeeds. -/
theorem claim_C4_witness :
    (Ascon.fill Ascon.init [7] (2 ^ 64 - 1 - [7].length)).1 = true :=
  claim_C4_overflow_exactness.1.2.2 Ascon.init [7] (by decide)

/-- C9: for every variant, when `fill` or `apply_keystream` returns the
overflow error the buffer is left byte-for-byte unmodified — the overflow
check precedes every write, so there is no partial-success state. -/
theorem claim_C9_no_partial_write :
    ((∀ (s : Ascon.St) (buf : List Nat) (o : Nat),
        (Ascon.fill s buf o).1 = false → (Ascon.fill s buf o).2 = buf)
      ∧ (∀ (s : Ascon.St) (buf : List Nat) (o : Nat),
        (Ascon.apply_keystream s buf o).1 = false → (Ascon.apply_keystream s buf o).2 = buf))
    ∧ ((∀ (p : List Nat → List Nat) (st buf : List Nat) (o : Nat),
        (Keccak.fill p st buf o).1 = false → (Keccak.fill p st buf o).2 = buf)
      ∧ (∀ (p : List Nat → List Nat) (st buf : List Nat) (o : Nat),
        (Keccak.apply_keystream p st buf o).1 = false
          → (Keccak.apply_keystream p st buf o).2 = buf))
    ∧ ((∀ (st buf : List Nat) (o : Nat),
        (ChaCha.fill st buf o).1 = false → (ChaCha.fill st buf o).2 = buf)
      ∧ (∀ (st buf : List Nat) (o : Nat),
        (ChaCha.apply_keystream st buf o).1 = false
          → (ChaCha.apply_keystream st buf o).2 = buf)) := by
  refine ⟨⟨?_, ?_⟩, ⟨?_, ?_⟩, ⟨?_, ?_⟩⟩
  · intro s buf o h
    exact genFill_unmodified 16 (Ascon.squeeze_rate s) buf o h
  · intro s buf o h
    exact genApply_unmodified 16 (Ascon.squeeze_rate s) (Ascon.apply_rate s) buf o h
  · intro p st buf o h
    exact genFill_unmodified 160 (Keccak.squeeze_rate p st) buf o h
  · intro p st buf o h
    exact genApply_unmodified 160 (Keccak.squeeze_rate p st) (Keccak.apply_rate p st)
      buf o h
  · intro st buf o h
    exact genFill_unmodified 64 (ChaCha.squeeze_rate st) buf o h
  · intro st buf o h
    exact genApply_unmodified 64 (ChaCha.squeeze_rate st) (ChaCha.apply_rate st) buf o h

/-- Witness for C9 at a concrete input: an overflowing ascon fill (one byte
at `u64::MAX`) leaves the buffer [0] unchanged. -/
theorem claim_C9_witness :
    (Ascon.fill Ascon.init [0] (2 ^ 64 - 1)).2 = [0] :=
  claim_C9_no_partial_write.1.1 Ascon.init [0] (2 ^ 64 - 1) (by decide)

/-- C10: for every variant and every valid offset including `u64::MAX`,
`fill` and `apply_keystream` on an empty buffer succeed, compute no
keystream block and write nothing: the result is `Ok` with the buffer
still empty. -/
theorem claim_C10_empty_buffer_ok :
    (∀ (s : Ascon.St) (o : Nat), o ≤ 2 ^ 64 - 1 →
        Ascon.fill s [] o = (true, []) ∧ Ascon.apply_keystream s [] o = (true, []))
    ∧ (∀ (p : List Nat → List Nat) (st : List Nat) (o : Nat), o ≤ 2 ^ 64 - 1 →
        Keccak.fill p st [] o = (true, []) ∧ Keccak.apply_keystream p st [] o = (true, []))
    ∧ (∀ (st : List Nat) (o : Nat), o ≤ 2 ^ 64 - 1 →
        ChaCha.fill st [] o = (true, []) ∧ ChaCha.apply_keystream st [] o = (true, [])) := by
  refine ⟨?_, ?_, ?_⟩
  · intro s o h
    exact ⟨genFill_nil 16 (Ascon.squeeze_rate s) o h,
      genApply_nil 16 (Ascon.squeeze_rate s) (Ascon.apply_rate s) o h⟩
  · intro p st o h
    exact ⟨genFill_nil 160 (Keccak.squeeze_rate p st) o h,
      genApply_nil 160 (Keccak.squeeze_rate p st) (Keccak.apply_rate p st) o h⟩
  · intro st o h
    exact ⟨genFill_nil 64 (ChaCha.squeeze_rate st) o h,
      genApply_nil 64 (ChaCha.squeeze_rate st) (ChaCha.apply_rate st) o h⟩

/-- Witness for C10 at a concrete input: an ascon fill of an empty buffer at
`u64::MAX` returns `Ok` and writes nothing. -/
theorem claim_C10_witness :
    Ascon.fill Ascon.init [] (2 ^ 64 - 1) = (true, []) :=
  (claim_C10_empty_buffer_ok.1 Ascon.init (2 ^ 64 - 1) (by decide)).1

/-- Counterexample to C6 as stated: on a concrete state, the ascon variant's
squeezed keystream block has 16 bytes, not the claimed 40. -/
theorem claim_C6_counterexample :
    (Ascon.squeeze_rate Ascon.init 0).length ≠ 40 := by
  decide

/-- C6 (amended): the 5-lane ASCON-based variant has a squeeze rate of
16 bytes (2 lanes: lanes 0 and 1) per keystream block, and each block
computation runs the reduced-round permutation `permute_r` consisting of the
first 8 of the 12 round constants — not 12 rounds, and with no feed-forward
mask (the squeezed lanes are the raw reduced-round permutation output). -/
theorem claim_C6_amended :
    (∀ (s : Ascon.St) (b : Nat), (Ascon.squeeze_rate s b).length = 16)
    ∧ (∀ s : Ascon.St, Ascon.permute_r s
        = (List.range 8).foldl (fun t i => Ascon.round t (Ascon.RKS.getD i 0)) s)
    ∧ (∀ s : Ascon.St, Ascon.permute s
        = (List.range 12).foldl (fun t i => Ascon.round t (Ascon.RKS.getD i 0)) s) := by
  refine ⟨fun s b => Ascon.ascon_squeeze_rate_length s b, fun s => ?_, fun s => ?_⟩
  · unfold Ascon.permute_r
    exact foldl_take_eq_range Ascon.round Ascon.RKS 8 (by decide) s
  · unfold Ascon.permute
    conv_lhs => rw [show Ascon.RKS = Ascon.RKS.take 12 from by decide]
    exact foldl_take_eq_range Ascon.round Ascon.RKS 12 (by decide) s

/-- Formalisation of the round schedule C7 claims, written from the spec's
variant table for comparison with the implementation: 20 rounds (10
double-rounds) followed by the elementwise wrapping feed-forward addition of
the original state. -/
def chachaClaimedPermute (st : List Nat) : List Nat :=
  List.zipWith ChaCha.add32 (ChaCha.double_round^[10] st) st

set_option maxRecDepth 10000 in
/-- Counterexample to C7 as stated: on a concrete state, the chacha variant's
permutation differs from the claimed 20-round (10 double-round) schedule. -/
theorem claim_C7_counterexample :
    ChaCha.permute (List.range 16) ≠ chachaClaimedPermute (List.range 16) := by
  decide

/-- C7 (amended): the 16-lane counter-style ChaCha-based variant runs
12 rounds (6 double-rounds, `12 / 2` loop iterations) per block computation,
then adds the original pre-permutation state elementwise with wrapping
32-bit addition as feed-forward. -/
theorem claim_C7_amended :
    ∀ st : List Nat, ChaCha.permute st
      = List.zipWith ChaCha.add32 (ChaCha.double_round^[6] st) st := by
  intro st
  unfold ChaCha.permute
  have h : (12 : Nat) / 2 = 6 := by norm_num
  rw [h, foldl_const_iterate]

/-- C8: in the 25-lane Keccak-based variant the absorption chunk is 168 bytes
(21 lanes) while the squeeze rate is 160 bytes; the squeezed bytes come from
lanes 5-24 after XORing the 64-bit block index into lane 4 — the single lane
immediately preceding the output lanes, which is also the lane that receives
the first 8 context bytes during absorption. -/
theorem claim_C8_rate_asymmetry :
    (∀ (p : List Nat → List Nat) (st : List Nat) (bo : Nat),
        (Keccak.squeeze_rate p st bo).length = 160)
    ∧ (∀ (p : List Nat → List Nat) (st : List Nat) (bo i : Nat), i < 160 →
        (Keccak.squeeze_rate p st bo).getD i 0
          = (leBytes 8 ((p (st.set 4 (st.getD 4 0 ^^^ bo))).getD (5 + i / 8) 0)).getD
              (i % 8) 0)
    ∧ (∀ ctx : List Nat, ctx.length < 168 →
        ∃ buf, padChunk 168 ctx = some buf ∧ buf.length = 168)
    ∧ (∀ st buf : List Nat, st.length = 25 → buf.length = 168 →
        ∃ st2, Keccak.absorb21 st buf = some st2 ∧ st2.length = 25
          ∧ st2.getD 4 0 = st.getD 4 0 ^^^ leVal (buf.take 8)) := by
  refine ⟨?_, ?_, ?_, ?_⟩
  · intro p st bo
    exact Keccak.keccak_squeeze_rate_length p st bo
  · intro p st bo i hi
    simp only [Keccak.squeeze_rate]
    exact flatMap_leBytes_getD 8 (by norm_num) 20 _ i (by omega)
  · intro ctx h
    refine ⟨ctx ++ 0x80 :: List.replicate (168 - ctx.length - 1) 0,
      padChunk_eq 168 ctx h, ?_⟩
    simp only [List.length_append, List.length_cons, List.length_replicate]
    omega
  · intro st buf hst hbuf
    exact keccak_absorb21_lane4 st buf hst hbuf

/-- Witness for C8 at a concrete input: byte 12 of the squeezed block (with
the identity permutation) is byte 4 of lane `5 + 12 / 8 = 6`. -/
theorem claim_C8_witness :
    (Keccak.squeeze_rate id Keccak.init 0).getD 12 0
      = (leBytes 8 ((id (Keccak.init.set 4 (Keccak.init.getD 4 0 ^^^ 0))).getD
          (5 + 12 / 8) 0)).getD (12 % 8) 0 :=
  claim_C8_rate_asymmetry.2.1 id Keccak.init 0 12 (by decide)
